import Mathlib

/-!
Verification of the A-share daily screener (stock_screener_akshare.py).

Shallow embedding conventions:
* prices and volumes are rationals (ℚ), dates are integers counting days
  (day 0 is taken to be a Friday, the week-ending weekday of the W-FRI rule);
* a pandas NaN / missing cell is `Option.none`;
* a function that can return `None` / drop a symbol returns `Option`.
-/

set_option maxRecDepth 8000

namespace StockScreener

/-- One row of a normalized daily dataframe: date, open, high, low, close, volume.
(`opn` stands for the `open` column, which is a Lean keyword.) -/
structure DBar where
  date : ℤ
  opn : ℚ
  high : ℚ
  low : ℚ
  close : ℚ
  volume : ℚ
deriving DecidableEq

/-- One weekly resampled bar (`resample("W-FRI")` output row). -/
structure WBar where
  weekEnd : ℤ
  opn : ℚ
  high : ℚ
  low : ℚ
  close : ℚ
  volume : ℚ
deriving DecidableEq

/-! ### weighted_quantile -/

/-- Ordering of (value, weight) pairs by value, used by `sort_values("v")`. -/
def vwLe (a b : ℚ × ℚ) : Prop := a.1 ≤ b.1

instance : DecidableRel vwLe := fun a b => inferInstanceAs (Decidable (a.1 ≤ b.1))

instance : IsTotal (ℚ × ℚ) vwLe := ⟨fun a b => le_total a.1 b.1⟩

instance : IsTrans (ℚ × ℚ) vwLe := ⟨fun _ _ _ h1 h2 => le_trans h1 h2⟩

/-- Walk the value-sorted list accumulating weight, returning the value of the first
entry whose cumulative weight share reaches `q`; the index is clamped to the last
entry (`idx = min(int(idx), len(temp) - 1)` in the source). -/
def pickWQ (q total : ℚ) : List (ℚ × ℚ) → ℚ → ℚ
  | [], _ => 0
  | [p], _ => p.1
  | p :: p2 :: rest, acc =>
    if q ≤ (acc + p.2) / total then p.1 else pickWQ q total (p2 :: rest) (acc + p.2)

/-- `weighted_quantile(values, weights, q)`: drop missing pairs, keep strictly
positive weights, sort by value, and take the value at the left `searchsorted`
position of `q` in the cumulative weight-share series. Empty data gives NaN
(modelled as `none`). -/
def weighted_quantile (values weights : List ℚ) (q : ℚ) : Option ℚ :=
  let temp := ((values.zip weights).filter fun p => decide (0 < p.2)).insertionSort vwLe
  if temp.isEmpty then none
  else some (pickWQ q ((temp.map Prod.snd).sum) temp 0)

/-! ### normalize_daily_df -/

/-- One raw input row after column renaming: each cell either parsed (`some`)
or missing/unparseable (`none`), matching `pd.to_datetime`/`pd.to_numeric`
with coercion errors. -/
structure RawRow where
  date : Option ℤ
  opn : Option ℚ
  high : Option ℚ
  low : Option ℚ
  close : Option ℚ
  volume : Option ℚ
deriving DecidableEq

/-- A raw tabular record set after alias renaming: which canonical columns are
present, and the rows. -/
structure RawTable where
  hasDate : Bool
  hasOpen : Bool
  hasHigh : Bool
  hasLow : Bool
  hasClose : Bool
  hasVolume : Bool
  rows : List RawRow
deriving DecidableEq

/-- Ascending-date ordering on daily bars, used by `sort_values("date")`. -/
def dateLe (a b : DBar) : Prop := a.date ≤ b.date

instance : DecidableRel dateLe := fun a b => inferInstanceAs (Decidable (a.date ≤ b.date))

instance : IsTotal DBar dateLe := ⟨fun a b => le_total a.date b.date⟩

instance : IsTrans DBar dateLe := ⟨fun _ _ _ h1 h2 => le_trans h1 h2⟩

/-- A row survives `dropna(subset=keep_cols)` exactly when every cell parsed. -/
def parseRow (r : RawRow) : Option DBar :=
  match r.date, r.opn, r.high, r.low, r.close, r.volume with
  | some d, some o, some h, some l, some c, some v => some ⟨d, o, h, l, c, v⟩
  | _, _, _, _, _, _ => none

/-- `normalize_daily_df`: require the columns date/close/high/low/volume, backfill
a missing `open` column from `close`, coerce cells, drop rows with any missing
required cell, sort ascending by date, and fail on an empty result. -/
def normalize_daily_df (t : RawTable) : Option (List DBar) :=
  if t.hasDate && t.hasClose && t.hasHigh && t.hasLow && t.hasVolume then
    let withOpen := t.rows.map fun r => if t.hasOpen then r else { r with opn := r.close }
    let sorted := (withOpen.filterMap parseRow).insertionSort dateLe
    if sorted.isEmpty then none else some sorted
  else none

/-- Re-encode a normalized series as a raw table in the canonical schema
(all six columns present, every cell parseable), as the cache round-trip does. -/
def toRaw (rows : List DBar) : RawTable :=
  { hasDate := true, hasOpen := true, hasHigh := true, hasLow := true,
    hasClose := true, hasVolume := true,
    rows := rows.map fun b =>
      ⟨some b.date, some b.opn, some b.high, some b.low, some b.close, some b.volume⟩ }

/-! ### fetch_daily_df -/

/-- Outcome of one provider call: a raised exception, or a returned value
(`none` for an absent dataframe). An empty dataframe is a `RawTable` whose
row list is empty. -/
inductive FetchOutcome where
  | raise : FetchOutcome
  | ret : Option RawTable → FetchOutcome
deriving DecidableEq

/-- The body of `fetch_daily_df`, starting at a given attempt number (attempts are
numbered from 1, as in `range(1, retry + 2)`). Returns the fetched-and-normalized
series together with the number of provider calls made and the number of back-off
sleeps performed. -/
def fetchFrom (provider : ℕ → FetchOutcome) (retry : ℕ) (attempt : ℕ) :
    Option (List DBar) × ℕ × ℕ :=
  match provider attempt with
  | FetchOutcome.raise =>
    if h : attempt ≤ retry then
      let rest := fetchFrom provider retry (attempt + 1)
      (rest.1, rest.2.1 + 1, rest.2.2 + 1)
    else (none, 1, 0)
  | FetchOutcome.ret none => (none, 1, 0)
  | FetchOutcome.ret (some t) =>
    if t.rows.isEmpty then (none, 1, 0)
    else
      match normalize_daily_df t with
      | none => (none, 1, 0)
      | some rows => (some rows, 1, 0)
termination_by retry + 1 - attempt
decreasing_by omega

/-- `fetch_daily_df`: run the attempt loop from attempt 1. -/
def fetch_daily_df (provider : ℕ → FetchOutcome) (retry : ℕ) :
    Option (List DBar) × ℕ × ℕ :=
  fetchFrom provider retry 1

/-! ### evaluate_ma120 -/

/-- The fields of a `ma120` strategy verdict. -/
structure MaVerdict where
  latestPrice : ℚ
  ma120 : ℚ
  priceMa120Ratio : ℚ
  peDynamic : ℚ
deriving DecidableEq

/-- The last entry of `close.rolling(120).mean()`: NaN (`none`) when fewer than
120 bars exist, else the mean of the trailing 120 closes. -/
def ma120Last (closes : List ℚ) : Option ℚ :=
  if closes.length < 120 then none
  else some ((closes.drop (closes.length - 120)).sum / 120)

/-- `evaluate_ma120` on the close series, the externally supplied dynamic PE
(`none` for NaN), and the PE ceiling. -/
def evaluate_ma120 (closes : List ℚ) (peDynamic : Option ℚ) (maxPe : ℚ) :
    Option MaVerdict :=
  match ma120Last closes, closes.getLast? with
  | some m, some price =>
    match peDynamic with
    | some pe =>
      if 0 < pe ∧ pe < maxPe then
        if price < m * (88/100) then
          some { latestPrice := price, ma120 := m, priceMa120Ratio := price / m,
                 peDynamic := pe }
        else none
      else none
    | none => none
  | _, _ => none

/-! ### weekly resampling -/

/-- The Friday ending the week of day `d` (W-FRI label), day 0 being a Friday. -/
def weekEnd (d : ℤ) : ℤ := d + (-d) % 7

/-- The daily bars whose dates fall in the week labelled `w`. -/
def weekGroup (days : List DBar) (w : ℤ) : List DBar :=
  days.filter fun b => decide (weekEnd b.date = w)

/-- The distinct week labels present in a daily series. -/
def weeksOf (days : List DBar) : List ℤ :=
  (days.map fun b => weekEnd b.date).dedup

/-- Maximum of a rational list (0 for the empty list, which never occurs here). -/
def listMaxD : List ℚ → ℚ
  | [] => 0
  | h :: t => t.foldl max h

/-- Minimum of a rational list (0 for the empty list, which never occurs here). -/
def listMinD : List ℚ → ℚ
  | [] => 0
  | h :: t => t.foldl min h

/-- Aggregate one week's daily bars: `open: first, high: max, low: min,
close: last, volume: sum`. -/
def aggWeek (w : ℤ) (g : List DBar) : WBar :=
  { weekEnd := w,
    opn := ((g.head?).map DBar.opn).getD 0,
    high := listMaxD (g.map DBar.high),
    low := listMinD (g.map DBar.low),
    close := ((g.getLast?).map DBar.close).getD 0,
    volume := (g.map DBar.volume).sum }

/-- `df.set_index("date").resample("W-FRI").agg(...)` followed by dropping the
all-NaN rows of empty weeks: one aggregated bar per week containing data. -/
def resampleWeekly (days : List DBar) : List WBar :=
  (weeksOf days).map fun w => aggWeek w (weekGroup days w)

/-! ### evaluate_weekly_chip_breakout -/

/-- The fields of a `weekly_chip_breakout` strategy verdict. -/
structure WVerdict where
  latestWeek : ℤ
  latestClose : ℚ
  chipZoneLow : ℚ
  chipZoneHigh : ℚ
  zoneWidthRatio : ℚ
  volumeConcentration : ℚ
  attempts : ℕ
  breakoutStrength : ℚ
deriving DecidableEq

/-- The python slice `l[-s:-e]` for a list (0 < e ≤ s). -/
def sliceNeg {α : Type} (l : List α) (s e : ℕ) : List α :=
  (l.drop (l.length - s)).take (l.length - e - (l.length - s))

/-- The base window `weekly.iloc[-52:-4]`. -/
def baseWindow (weekly : List WBar) : List WBar := sliceNeg weekly 52 4

/-- The pre-breakout window `weekly.iloc[-14:-1]`: the 13 weeks ending one week
before the latest bar. -/
def preWindow (weekly : List WBar) : List WBar := sliceNeg weekly 14 1

/-- `zone_low`: volume-weighted 35th percentile of base-window weekly closes. -/
def zoneLowOf (weekly : List WBar) : Option ℚ :=
  weighted_quantile ((baseWindow weekly).map WBar.close)
    ((baseWindow weekly).map WBar.volume) (35/100)

/-- `zone_high`: volume-weighted 65th percentile of base-window weekly closes. -/
def zoneHighOf (weekly : List WBar) : Option ℚ :=
  weighted_quantile ((baseWindow weekly).map WBar.close)
    ((baseWindow weekly).map WBar.volume) (65/100)

/-- Touch attempts in a window: weeks whose high reached `zone_high * (1 - 0.02)`
while closing at or below `zone_high * 1.01`. -/
def touchCount (pre : List WBar) (zoneHigh : ℚ) : ℕ :=
  (pre.filter fun b =>
    decide (zoneHigh * (1 - 2/100) ≤ b.high ∧ b.close ≤ zoneHigh * (101/100))).length

/-- The body of `evaluate_weekly_chip_breakout` after weekly resampling. -/
def evaluateWeeklyCore (weekly : List WBar) : Option WVerdict :=
  if weekly.length < 60 then none
  else
    let base := baseWindow weekly
    if base.length < 30 then none
    else
      match zoneLowOf weekly, zoneHighOf weekly with
      | some zoneLow, some zoneHigh =>
        if zoneHigh ≤ zoneLow then none
        else
          let meanPrice := (base.map WBar.close).sum / base.length
          let zoneWidthRatio := if 0 < meanPrice then (zoneHigh - zoneLow) / meanPrice else 999
          let inZoneVolume :=
            ((base.filter fun b => decide (zoneLow ≤ b.close ∧ b.close ≤ zoneHigh)).map
              WBar.volume).sum
          let totalVolume := (base.map WBar.volume).sum
          let volumeConcentration := if 0 < totalVolume then inZoneVolume / totalVolume else 0
          if zoneWidthRatio ≤ 18/100 ∧ 40/100 ≤ volumeConcentration then
            if (preWindow weekly).length < 8 then none
            else
              let attempts := touchCount (preWindow weekly) zoneHigh
              if 2 ≤ attempts ∧ attempts ≤ 3 then
                match weekly.getLast?, (weekly.drop (weekly.length - 2)).head? with
                | some latest, some prev =>
                  if zoneHigh * (101/100) < latest.close ∧ zoneHigh < latest.high ∧
                      prev.close ≤ zoneHigh * (101/100) then
                    some { latestWeek := latest.weekEnd, latestClose := latest.close,
                           chipZoneLow := zoneLow, chipZoneHigh := zoneHigh,
                           zoneWidthRatio := zoneWidthRatio,
                           volumeConcentration := volumeConcentration,
                           attempts := attempts,
                           breakoutStrength := latest.close / zoneHigh }
                  else none
                | _, _ => none
              else none
          else none
      | _, _ => none

/-- `evaluate_weekly_chip_breakout` on a daily series: resample to weekly bars,
then run the core evaluation. -/
def evaluate_weekly_chip_breakout (days : List DBar) : Option WVerdict :=
  evaluateWeeklyCore (resampleWeekly days)

/-! ### process_one -/

/-- Observable per-symbol pipeline effects, in order of occurrence. -/
inductive PipeEvent where
  | loadCache : PipeEvent
  | fetchCall : PipeEvent
  | writeCache : List DBar → PipeEvent
  | evalStrategy : List DBar → PipeEvent
deriving DecidableEq

/-- `process_one` up to strategy dispatch: try the local cache, else fetch; on a
usable series, rewrite the cache file and hand the series to the strategy.
Returns the series handed to evaluation (`none`: symbol dropped) and the
event trace. `cacheLoad` is what `load_local_daily_df` would return;
`fetchRes` is what `fetch_daily_df` would return. -/
def process_one (useLocalCache cacheFileExists : Bool)
    (cacheLoad : Option (List DBar)) (fetchRes : Option (List DBar)) :
    Option (List DBar) × List PipeEvent :=
  let step0 : Option (List DBar) × List PipeEvent :=
    if useLocalCache && cacheFileExists then (cacheLoad, [PipeEvent.loadCache])
    else (none, [])
  let step1 : Option (List DBar) × List PipeEvent :=
    match step0.1 with
    | none => (fetchRes, step0.2 ++ [PipeEvent.fetchCall])
    | some rows =>
      if rows.isEmpty then (fetchRes, step0.2 ++ [PipeEvent.fetchCall])
      else (some rows, step0.2)
  match step1.1 with
  | none => (none, step1.2)
  | some rows =>
    if rows.isEmpty then (none, step1.2)
    else (some rows, step1.2 ++ [PipeEvent.writeCache rows, PipeEvent.evalStrategy rows])

/-! ### the tail of main: aggregation and the result file -/

/-- Ranking for the ma120 strategy: ascending `price_ma120_ratio`, tie-break
ascending `pe_dynamic`. -/
def maRank (a b : MaVerdict) : Prop :=
  a.priceMa120Ratio < b.priceMa120Ratio ∨
    (a.priceMa120Ratio = b.priceMa120Ratio ∧ a.peDynamic ≤ b.peDynamic)

instance : DecidableRel maRank := fun a b =>
  inferInstanceAs (Decidable (a.priceMa120Ratio < b.priceMa120Ratio ∨
    (a.priceMa120Ratio = b.priceMa120Ratio ∧ a.peDynamic ≤ b.peDynamic)))

/-- `screened.sort_values(["price_ma120_ratio", "pe_dynamic"], ascending=[True, True])`. -/
def sortRowsMa (rows : List MaVerdict) : List MaVerdict :=
  rows.insertionSort maRank

/-- How a run ends after the per-symbol loop: with only a console status
(no result file written), or with the sorted result table written. -/
inductive RunOutcome where
  | emptyStatus : RunOutcome
  | wrote : List MaVerdict → RunOutcome
deriving DecidableEq

/-- The tail of `main`: on an empty verdict list, print the status message and
return; otherwise sort the verdicts and write the result file. -/
def finishRun (rows : List MaVerdict) : RunOutcome :=
  if rows.isEmpty then RunOutcome.emptyStatus
  else RunOutcome.wrote (sortRowsMa rows)

/-! ### concrete inputs used by witnesses and counterexamples -/

/-- 119 closes at 100 followed by one close at 85. -/
def closes120 : List ℚ := List.replicate 119 100 ++ [85]

/-- A constant weekly bar. -/
def wbar0 : WBar := { weekEnd := 0, opn := 100, high := 100, low := 100, close := 100, volume := 1 }

/-- A constant weekly series of 60 bars. -/
def weekly60 : List WBar := List.replicate 60 wbar0

/-- A one-row raw table in the canonical schema. -/
def goodTable : RawTable :=
  { hasDate := true, hasOpen := true, hasHigh := true, hasLow := true,
    hasClose := true, hasVolume := true,
    rows := [⟨some 0, some 1, some 2, some 1, some 2, some 3⟩] }

/-- The normalization of `goodTable`. -/
def goodRows : List DBar := [⟨0, 1, 2, 1, 2, 3⟩]

/-- A provider whose first call returns an absent dataframe and whose later calls
return usable data. -/
def provEmptyThenGood : ℕ → FetchOutcome :=
  fun a => if a = 1 then FetchOutcome.ret none else FetchOutcome.ret (some goodTable)

/-- A provider that raises on every call. -/
def provAlwaysRaise : ℕ → FetchOutcome := fun _ => FetchOutcome.raise

/-- Three daily bars: a Friday (day 0), then the following Saturday and Friday,
which share the next week label. -/
def days3 : List DBar :=
  [⟨0, 10, 12, 9, 11, 5⟩, ⟨1, 11, 15, 10, 12, 3⟩, ⟨7, 12, 14, 8, 13, 4⟩]

/-- A concrete verdict row. -/
def mv0 : MaVerdict := { latestPrice := 85, ma120 := 100, priceMa120Ratio := 85/100,
                         peDynamic := 15 }

/-- A concrete daily bar. -/
def d1 : DBar := ⟨0, 1, 2, 1, 2, 3⟩

/-! ## Helper lemmas -/

lemma pickWQ_mem (q total : ℚ) :
    ∀ (l : List (ℚ × ℚ)) (acc : ℚ), l ≠ [] → pickWQ q total l acc ∈ l.map Prod.fst
  | [], _, h => absurd rfl h
  | [p], _, _ => by simp [pickWQ]
  | p :: p2 :: rest, acc, _ => by
    by_cases hq : q ≤ (acc + p.2) / total
    · simp [pickWQ, hq]
    · have ih := pickWQ_mem q total (p2 :: rest) (acc + p.2) (by simp)
      simp only [pickWQ, if_neg hq]
      simp only [List.map_cons, List.mem_cons] at ih ⊢
      tauto

lemma pickWQ_mono (q1 q2 total : ℚ) (hq : q1 ≤ q2) :
    ∀ (l : List (ℚ × ℚ)) (acc : ℚ), l.Sorted vwLe →
      pickWQ q1 total l acc ≤ pickWQ q2 total l acc
  | [], _, _ => le_refl _
  | [p], _, _ => le_refl _
  | p :: p2 :: rest, acc, hs => by
    by_cases h2 : q2 ≤ (acc + p.2) / total
    · have h1 : q1 ≤ (acc + p.2) / total := le_trans hq h2
      simp [pickWQ, h1, h2]
    · by_cases h1 : q1 ≤ (acc + p.2) / total
      · simp only [pickWQ, if_pos h1, if_neg h2]
        have hmem := pickWQ_mem q2 total (p2 :: rest) (acc + p.2) (by simp)
        rcases List.mem_map.mp hmem with ⟨b, hb, hbeq⟩
        have := List.rel_of_sorted_cons hs b hb
        rw [← hbeq]
        exact this
      · simp only [pickWQ, if_neg h1, if_neg h2]
        exact pickWQ_mono q1 q2 total hq (p2 :: rest) (acc + p.2) hs.of_cons

/-! ## C7: weighted-quantile monotonicity -/

/-- C7: for a fixed list of values and weights and quantile targets
`q1 ≤ q2` in `[0, 1]`, whenever both weighted quantiles are defined,
`weighted_quantile(values, weights, q1) ≤ weighted_quantile(values, weights, q2)`. -/
theorem weighted_quantile_mono (values weights : List ℚ) (q1 q2 a b : ℚ)
    (hq1 : 0 ≤ q1) (hq : q1 ≤ q2) (hq2 : q2 ≤ 1)
    (ha : weighted_quantile values weights q1 = some a)
    (hb : weighted_quantile values weights q2 = some b) : a ≤ b := by
  unfold weighted_quantile at ha hb
  by_cases hemp :
      (((values.zip weights).filter fun p => decide (0 < p.2)).insertionSort vwLe).isEmpty
  · rw [if_pos hemp] at ha
    exact absurd ha (by simp)
  · rw [if_neg hemp] at ha hb
    have hs := List.sorted_insertionSort vwLe
      ((values.zip weights).filter fun p => decide (0 < p.2))
    have := pickWQ_mono q1 q2
      ((((values.zip weights).filter fun p => decide (0 < p.2)).insertionSort vwLe).map
        Prod.snd).sum hq
      (((values.zip weights).filter fun p => decide (0 < p.2)).insertionSort vwLe) 0 hs
    have ha' := Option.some.inj ha
    have hb' := Option.some.inj hb
    rw [← ha', ← hb']
    exact this

/-- Witness for C7 at a concrete input: quantiles 1/4 and 3/4 of values 1, 2
with unit weights. -/
theorem weighted_quantile_mono_witness :
    weighted_quantile [1, 2] [1, 1] (1/4) = some 1 ∧
    weighted_quantile [1, 2] [1, 1] (3/4) = some 2 ∧ (1 : ℚ) ≤ 2 :=
  ⟨by norm_num [weighted_quantile, List.insertionSort, List.orderedInsert, vwLe, pickWQ],
    by norm_num [weighted_quantile, List.insertionSort, List.orderedInsert, vwLe, pickWQ],
    weighted_quantile_mono [1, 2] [1, 1] (1/4) (3/4) 1 2 (by norm_num) (by norm_num)
      (by norm_num)
      (by norm_num [weighted_quantile, List.insertionSort, List.orderedInsert, vwLe, pickWQ])
      (by norm_num [weighted_quantile, List.insertionSort, List.orderedInsert, vwLe, pickWQ])⟩

/-! ## C4: ma120 is the trailing 120-bar arithmetic mean -/

lemma sum_eq_range_getD (l : List ℚ) :
    l.sum = ∑ j ∈ Finset.range l.length, l.getD j 0 := by
  induction l with
  | nil => simp
  | cons a t ih =>
    rw [List.sum_cons, List.length_cons, Finset.sum_range_succ']
    simp only [List.getD_cons_succ, List.getD_cons_zero]
    rw [ih]
    ring

lemma sum_drop_eq_sum_Ico (l : List ℚ) (k : ℕ) :
    (l.drop k).sum = ∑ i ∈ Finset.Ico k l.length, l.getD i 0 := by
  induction k generalizing l with
  | zero =>
    rw [List.drop_zero, sum_eq_range_getD, Finset.range_eq_Ico]
  | succ k ih =>
    cases l with
    | nil => simp
    | cons a t =>
      rw [List.drop_succ_cons, ih t, List.length_cons]
      rw [Finset.sum_Ico_eq_sum_range, Finset.sum_Ico_eq_sum_range]
      have hlen : t.length - k = t.length + 1 - (k + 1) := by omega
      rw [← hlen]
      refine Finset.sum_congr rfl fun j _ => ?_
      have : k + 1 + j = (k + j) + 1 := by omega
      rw [this, List.getD_cons_succ]

/-- C4: for a close series with at least 120 bars, the ma120 value at the last
bar equals the arithmetic mean of the closes at the trailing 120 indices; with
fewer than 120 bars the moving average is undefined and the strategy returns
no verdict. -/
theorem ma120_trailing_mean (closes : List ℚ) :
    (120 ≤ closes.length →
      ma120Last closes =
        some ((∑ i ∈ Finset.Ico (closes.length - 120) closes.length, closes.getD i 0) / 120)) ∧
    (closes.length < 120 →
      ∀ pe maxPe, evaluate_ma120 closes pe maxPe = none) := by
  constructor
  · intro h
    rw [ma120Last, if_neg (by omega), sum_drop_eq_sum_Ico]
  · intro h pe maxPe
    rw [evaluate_ma120, ma120Last, if_pos h]

/-- Witness for C4 at concrete inputs: the 120-bar series `closes120` and a
1-bar series. -/
theorem ma120_trailing_mean_witness :
    ma120Last closes120 =
      some ((∑ i ∈ Finset.Ico (closes120.length - 120) closes120.length,
        closes120.getD i 0) / 120) ∧
    evaluate_ma120 [1] (some 10) 20 = none :=
  ⟨(ma120_trailing_mean closes120).1 (by simp [closes120]),
    (ma120_trailing_mean [1]).2 (by simp) (some 10) 20⟩

/-! ## C3: the ma120 acceptance condition -/

/-- C3: with the 120-bar moving average defined, the ma120 strategy accepts
exactly when the latest close is strictly below `ma120 * 0.88` and the supplied
valuation ratio `r` satisfies `0 < r < maxPe`; a missing (NaN) valuation ratio
is an automatic rejection. -/
theorem evaluate_ma120_accept_iff (closes : List ℚ) (pe : Option ℚ) (maxPe m price : ℚ)
    (hm : ma120Last closes = some m) (hp : closes.getLast? = some price) :
    ((∃ v, evaluate_ma120 closes pe maxPe = some v) ↔
      (price < m * (88/100) ∧ ∃ r, pe = some r ∧ 0 < r ∧ r < maxPe)) ∧
    evaluate_ma120 closes none maxPe = none := by
  constructor
  · rw [evaluate_ma120, hm, hp]
    cases pe with
    | none => simp
    | some r =>
      by_cases hpe : 0 < r ∧ r < maxPe
      · by_cases hpr : price < m * (88/100)
        · simp only [if_pos hpe, if_pos hpr]
          constructor
          · intro _
            exact ⟨hpr, r, rfl, hpe⟩
          · intro _
            exact ⟨_, rfl⟩
        · simp only [if_pos hpe, if_neg hpr]
          constructor
          · intro ⟨v, hv⟩
            exact absurd hv (by simp)
          · intro ⟨hc, _⟩
            exact absurd hc hpr
      · simp only [if_neg hpe]
        constructor
        · intro ⟨v, hv⟩
          exact absurd hv (by simp)
        · intro ⟨_, r', hr', hr2⟩
          rw [Option.some.inj hr'] at hpe
          exact absurd hr2 hpe
  · rw [evaluate_ma120, hm, hp]

/-- Witness for C3 at a concrete input: 119 closes at 100 then one at 85,
valuation ratio 15, ceiling 20. -/
theorem evaluate_ma120_accept_iff_witness :
    ∃ v, evaluate_ma120 closes120 (some 15) 20 = some v :=
  (evaluate_ma120_accept_iff closes120 (some 15) 20 (799/8) 85
    (by norm_num [ma120Last, closes120, List.sum_append, List.sum_replicate])
    (by rfl)).1.mpr
    ⟨by norm_num, 15, rfl, by norm_num, by norm_num⟩

/-! ## C1: the fetch retry discipline -/

lemma fetchFrom_raise_all (provider : ℕ → FetchOutcome) (retry : ℕ)
    (hall : ∀ a, provider a = FetchOutcome.raise) :
    ∀ (n attempt : ℕ), attempt + n = retry + 1 →
      fetchFrom provider retry attempt = (none, n + 1, n) := by
  intro n
  induction n with
  | zero =>
    intro attempt h
    rw [fetchFrom, hall attempt]
    rw [dif_neg (by omega)]
  | succ k ih =>
    intro attempt h
    rw [fetchFrom, hall attempt]
    rw [dif_pos (by omega), ih (attempt + 1) (by omega)]

/-- C1 (amended): on a raised exception the fetch loop sleeps and retries while
attempts remain, for `retry + 1` total tries (`retry` sleeps); but an absent
provider result aborts the loop at once with no further try and no sleep. -/
theorem fetch_retry_discipline (provider : ℕ → FetchOutcome) (retry : ℕ) :
    ((∀ a, provider a = FetchOutcome.raise) →
      fetch_daily_df provider retry = (none, retry + 1, retry)) ∧
    (provider 1 = FetchOutcome.ret none →
      fetch_daily_df provider retry = (none, 1, 0)) := by
  constructor
  · intro hall
    rw [fetch_daily_df, fetchFrom_raise_all provider retry hall retry 1 (by omega)]
  · intro h1
    rw [fetch_daily_df, fetchFrom, h1]

/-- Witness for C1 (amended) at concrete inputs: an always-raising provider
with retry budget 2, and a provider whose first result is absent. -/
theorem fetch_retry_discipline_witness :
    fetch_daily_df provAlwaysRaise 2 = (none, 3, 2) ∧
    fetch_daily_df provEmptyThenGood 5 = (none, 1, 0) :=
  ⟨(fetch_retry_discipline provAlwaysRaise 2).1 (fun _ => rfl),
    (fetch_retry_discipline provEmptyThenGood 5).2 rfl⟩

/-- Counterexample to C1 as stated: with retry budget 2 (three total tries),
the provider returns an absent result on the first call and usable data on
every later call. The claim predicts a back-off and retry — which would succeed
within budget — but the code returns Unavailable immediately, after a single
provider call and no sleep. -/
theorem fetch_empty_result_not_retried_cex :
    fetch_daily_df provEmptyThenGood 2 = (none, 1, 0) ∧
    provEmptyThenGood 2 = FetchOutcome.ret (some goodTable) ∧
    normalize_daily_df goodTable = some goodRows ∧
    (none : Option (List DBar)) ≠ some goodRows := by
  refine ⟨?_, rfl, by decide, by simp⟩
  rw [fetch_daily_df, fetchFrom]
  rfl

/-! ## C2: the empty-result run outcome -/

/-- C2 (amended): when no symbol is accepted, the run completes with the
empty-result console status and does not write the result file; the sorted
result table is written only when at least one verdict exists. -/
theorem finishRun_empty_behavior (rows : List MaVerdict) :
    (rows = [] → finishRun rows = RunOutcome.emptyStatus) ∧
    (rows ≠ [] → ∃ t, finishRun rows = RunOutcome.wrote t) := by
  constructor
  · intro h
    rw [h]
    rfl
  · intro h
    rw [finishRun, if_neg (by simpa using h)]
    exact ⟨_, rfl⟩

/-- Witness for C2 (amended): the empty verdict list and a one-verdict list. -/
theorem finishRun_empty_behavior_witness :
    finishRun [] = RunOutcome.emptyStatus ∧ ∃ t, finishRun [mv0] = RunOutcome.wrote t :=
  ⟨(finishRun_empty_behavior []).1 rfl, (finishRun_empty_behavior [mv0]).2 (by simp)⟩

/-- Counterexample to C2 as stated: on an empty verdict list the run ends in
the console-status state and no result table — not even an empty one — is
written. -/
theorem finishRun_empty_no_write_cex :
    finishRun [] = RunOutcome.emptyStatus ∧ finishRun [] ≠ RunOutcome.wrote [] := by
  constructor
  · rfl
  · intro h
    exact absurd h (by decide)

/-! ## C9: normalizer idempotence -/

lemma filterMap_parse_toRaw (l : List DBar) :
    ((l.map fun b =>
      (⟨some b.date, some b.opn, some b.high, some b.low, some b.close, some b.volume⟩ :
        RawRow)).filterMap parseRow) = l := by
  induction l with
  | nil => rfl
  | cons b bs ih => simp [parseRow, ih]

/-- C9: the normalizer is idempotent — re-normalizing any series it has produced
(re-encoded in the canonical cache schema) returns exactly the same series, with
the same rows and values in the same ascending date order. -/
theorem normalize_idempotent (t : RawTable) (out : List DBar)
    (h : normalize_daily_df t = some out) :
    normalize_daily_df (toRaw out) = some out := by
  have hsorted : out.Sorted dateLe := by
    rw [normalize_daily_df] at h
    by_cases hcols : (t.hasDate && t.hasClose && t.hasHigh && t.hasLow && t.hasVolume) = true
    · rw [if_pos hcols] at h
      by_cases hemp :
          (((t.rows.map fun r =>
            if t.hasOpen then r else { r with opn := r.close }).filterMap
              parseRow).insertionSort dateLe).isEmpty
      · rw [if_pos hemp] at h
        exact absurd h (by simp)
      · rw [if_neg hemp] at h
        rw [← Option.some.inj h]
        exact List.sorted_insertionSort dateLe _
    · rw [if_neg hcols] at h
      exact absurd h (by simp)
  have hne : out ≠ [] := by
    rw [normalize_daily_df] at h
    by_cases hcols : (t.hasDate && t.hasClose && t.hasHigh && t.hasLow && t.hasVolume) = true
    · rw [if_pos hcols] at h
      by_cases hemp :
          (((t.rows.map fun r =>
            if t.hasOpen then r else { r with opn := r.close }).filterMap
              parseRow).insertionSort dateLe).isEmpty
      · rw [if_pos hemp] at h
        exact absurd h (by simp)
      · rw [if_neg hemp] at h
        intro hout
        rw [Option.some.inj h] at hemp
        rw [hout] at hemp
        exact hemp rfl
    · rw [if_neg hcols] at h
      exact absurd h (by simp)
  rw [normalize_daily_df]
  simp only [toRaw, Bool.and_self, if_true, ite_true, List.map_id']
  rw [filterMap_parse_toRaw, hsorted.insertionSort_eq]
  rw [if_neg (by simpa using hne)]

/-- Witness for C9 at a concrete input: a one-row canonical table. -/
theorem normalize_idempotent_witness :
    normalize_daily_df (toRaw goodRows) = some goodRows :=
  normalize_idempotent goodTable goodRows (by decide)

/-! ## C10: the cache file is rewritten before strategy evaluation -/

/-- C10: whenever the per-symbol pipeline obtains a usable series, its event
trace ends with a cache write of that normalized series immediately followed by
the strategy evaluation; and on a pure cache hit (cache enabled, file present,
load succeeds with a non-empty series) the trace is exactly load, rewrite,
evaluate — no fetch, and the cache file is rewritten even though the data came
from the cache. -/
theorem process_one_writes_cache_before_eval (u c : Bool)
    (cl fr : Option (List DBar)) (rows : List DBar)
    (h : (process_one u c cl fr).1 = some rows) :
    (∃ pre, (process_one u c cl fr).2 =
      pre ++ [PipeEvent.writeCache rows, PipeEvent.evalStrategy rows]) ∧
    (u = true → c = true → cl = some rows → rows ≠ [] →
      (process_one u c cl fr).2 =
        [PipeEvent.loadCache, PipeEvent.writeCache rows, PipeEvent.evalStrategy rows]) := by
  by_cases hhit : ∃ l, cl = some l ∧ (u && c) = true ∧ l.isEmpty = false
  · -- a usable cached series: no fetch, but the cache file is still rewritten
    rcases hhit with ⟨l, rfl, huc, hl⟩
    rcases (Bool.and_eq_true u c).mp huc with ⟨rfl, rfl⟩
    have hres : process_one true true (some l) fr =
        (some l, [PipeEvent.loadCache, PipeEvent.writeCache l, PipeEvent.evalStrategy l]) := by
      simp [process_one, hl]
    rw [hres] at h
    obtain rfl : l = rows := Option.some.inj h
    refine ⟨⟨[PipeEvent.loadCache], by rw [hres]; rfl⟩, ?_⟩
    intro _ _ _ _
    rw [hres]
  · -- no usable cached series: the pipeline falls through to the fetch result
    have huc' : ∀ l, cl = some l → l.isEmpty = false → (u && c) = false := by
      intro l hcl hl
      cases huc : (u && c)
      · rfl
      · exact absurd ⟨l, hcl, huc, hl⟩ hhit
    rcases fr with _ | f
    · exfalso
      rcases cl with _ | l
      · cases huc : (u && c) <;> simp [process_one, huc] at h
      · by_cases hl : l.isEmpty
        · cases huc : (u && c) <;> simp [process_one, huc, hl] at h
        · have hf0 := huc' l rfl (by simpa using hl)
          simp [process_one, hf0, hl] at h
    · by_cases hf : f.isEmpty
      · exfalso
        rcases cl with _ | l
        · cases huc : (u && c) <;> simp [process_one, huc, hf] at h
        · by_cases hl : l.isEmpty
          · cases huc : (u && c) <;> simp [process_one, huc, hl, hf] at h
          · have hf0 := huc' l rfl (by simpa using hl)
            simp [process_one, hf0, hl, hf] at h
      · have hres : process_one u c cl (some f) =
            (some f, (if u && c then [PipeEvent.loadCache] else []) ++
              [PipeEvent.fetchCall, PipeEvent.writeCache f, PipeEvent.evalStrategy f]) := by
          rcases cl with _ | l
          · cases huc : (u && c) <;> simp [process_one, huc, hf]
          · by_cases hl : l.isEmpty
            · cases huc : (u && c) <;> simp [process_one, huc, hl, hf]
            · have hf0 := huc' l rfl (by simpa using hl)
              simp [process_one, hf0, hl, hf]
        rw [hres] at h
        obtain rfl : f = rows := Option.some.inj h
        constructor
        · refine ⟨(if u && c then [PipeEvent.loadCache] else []) ++ [PipeEvent.fetchCall], ?_⟩
          rw [hres]
          simp
        · intro hu hc hcl hr
          subst hu
          subst hc
          have hemp : f.isEmpty = false := by
            cases f with
            | nil => exact absurd rfl hr
            | cons a t => rfl
          have := huc' f hcl hemp
          simp at this

/-- Witness for C10 at a concrete input: cache enabled and present, loading a
one-bar series, no fetch result. -/
theorem process_one_writes_cache_before_eval_witness :
    (∃ pre, (process_one true true (some [d1]) none).2 =
      pre ++ [PipeEvent.writeCache [d1], PipeEvent.evalStrategy [d1]]) ∧
    (true = true → true = true → some [d1] = some [d1] → [d1] ≠ [] →
      (process_one true true (some [d1]) none).2 =
        [PipeEvent.loadCache, PipeEvent.writeCache [d1], PipeEvent.evalStrategy [d1]]) :=
  process_one_writes_cache_before_eval true true (some [d1]) none [d1] (by decide)

/-! ## C5 and C6: the weekly breakout guards -/

lemma weeklyTail_spec (weekly : List WBar) (v : WVerdict) (zl zh wr vc : ℚ)
    (h : (if wr ≤ 18/100 ∧ 40/100 ≤ vc then
            if (preWindow weekly).length < 8 then none
            else
              if 2 ≤ touchCount (preWindow weekly) zh ∧ touchCount (preWindow weekly) zh ≤ 3 then
                match weekly.getLast?, (weekly.drop (weekly.length - 2)).head? with
                | some latest, some prev =>
                  if zh * (101/100) < latest.close ∧ zh < latest.high ∧
                      prev.close ≤ zh * (101/100) then
                    some { latestWeek := latest.weekEnd, latestClose := latest.close,
                           chipZoneLow := zl, chipZoneHigh := zh, zoneWidthRatio := wr,
                           volumeConcentration := vc,
                           attempts := touchCount (preWindow weekly) zh,
                           breakoutStrength := latest.close / zh }
                  else none
                | _, _ => none
              else none
          else none) = some v) :
    ∃ latest prev, weekly.getLast? = some latest ∧
      (weekly.drop (weekly.length - 2)).head? = some prev ∧
      v.chipZoneHigh = zh ∧ v.attempts = touchCount (preWindow weekly) zh ∧
      2 ≤ v.attempts ∧ v.attempts ≤ 3 ∧
      zh * (101/100) < latest.close ∧ zh < latest.high ∧ prev.close ≤ zh * (101/100) := by
  split at h
  · split at h
    · exact absurd h (by simp)
    · split at h
      · rename_i hatt
        split at h
        · rename_i latest prev hlast hprev
          split at h
          · rename_i hbrk
            have hv := Option.some.inj h
            exact ⟨latest, prev, hlast, hprev, by rw [← hv], by rw [← hv],
              by rw [← hv]; exact hatt.1, by rw [← hv]; exact hatt.2,
              hbrk.1, hbrk.2.1, hbrk.2.2⟩
          · exact absurd h (by simp)
        · exact absurd h (by simp)
      · exact absurd h (by simp)
  · exact absurd h (by simp)

lemma evaluateWeeklyCore_some_spec (weekly : List WBar) (v : WVerdict)
    (h : evaluateWeeklyCore weekly = some v) :
    ∃ zl zh latest prev, zoneLowOf weekly = some zl ∧ zoneHighOf weekly = some zh ∧
      weekly.getLast? = some latest ∧ (weekly.drop (weekly.length - 2)).head? = some prev ∧
      v.chipZoneHigh = zh ∧ v.attempts = touchCount (preWindow weekly) zh ∧
      2 ≤ v.attempts ∧ v.attempts ≤ 3 ∧
      zh * (101/100) < latest.close ∧ zh < latest.high ∧ prev.close ≤ zh * (101/100) := by
  simp only [evaluateWeeklyCore] at h
  split at h
  · exact absurd h (by simp)
  · split at h
    · exact absurd h (by simp)
    · split at h
      · rename_i zl zh heq1 heq2
        split at h
        · exact absurd h (by simp)
        · split at h <;> split at h <;>
          exact
            match weeklyTail_spec weekly v zl zh _ _ h with
            | ⟨latest, prev, h3, h4, h5, h6, h7, h8, h9, h10, h11⟩ =>
              ⟨zl, zh, latest, prev, heq1, heq2, h3, h4, h5, h6, h7, h8, h9, h10, h11⟩
      · exact absurd h (by simp)

/-- C5: whenever the weekly strategy accepts, the verdict's attempt count is the
number of touch attempts (weeks whose high reached `zone_high * (1 - 0.02)` and
whose close stayed at or below `zone_high * 1.01`) in the 13-week pre-breakout
window, and that count is exactly 2 or 3; when the touch count is not 2 or 3
the strategy rejects. -/
theorem touch_attempts_two_or_three (weekly : List WBar) (zh : ℚ)
    (hzh : zoneHighOf weekly = some zh) :
    (∀ v, evaluateWeeklyCore weekly = some v →
      v.attempts = touchCount (preWindow weekly) zh ∧ (v.attempts = 2 ∨ v.attempts = 3)) ∧
    (¬ (touchCount (preWindow weekly) zh = 2 ∨ touchCount (preWindow weekly) zh = 3) →
      evaluateWeeklyCore weekly = none) := by
  constructor
  · intro v hv
    obtain ⟨zl, zh', latest, prev, _, h2, _, _, _, h6, h7, h8, _, _, _⟩ :=
      evaluateWeeklyCore_some_spec weekly v hv
    have hzz : zh' = zh := by
      rw [hzh] at h2
      exact (Option.some.inj h2).symm
    rw [hzz] at h6
    exact ⟨h6, by omega⟩
  · intro hbad
    cases hev : evaluateWeeklyCore weekly with
    | none => rfl
    | some v =>
      obtain ⟨zl, zh', latest, prev, _, h2, _, _, _, h6, h7, h8, _, _, _⟩ :=
        evaluateWeeklyCore_some_spec weekly v hev
      have hzz : zh' = zh := by
        rw [hzh] at h2
        exact (Option.some.inj h2).symm
      rw [hzz] at h6
      rw [h6] at h7 h8
      exact absurd (by omega) hbad

/-- C6: whenever the weekly strategy accepts, the latest completed weekly bar
closed strictly above `zone_high * 1.01` with a high strictly above `zone_high`,
while the immediately preceding week closed at or below `zone_high * 1.01`; in
every other configuration the strategy rejects. -/
theorem breakout_confirmation (weekly : List WBar) (zh : ℚ) (latest prev : WBar)
    (hzh : zoneHighOf weekly = some zh)
    (hlast : weekly.getLast? = some latest)
    (hprev : (weekly.drop (weekly.length - 2)).head? = some prev) :
    (∀ v, evaluateWeeklyCore weekly = some v →
      zh * (101/100) < latest.close ∧ zh < latest.high ∧ prev.close ≤ zh * (101/100)) ∧
    (¬ (zh * (101/100) < latest.close ∧ zh < latest.high ∧ prev.close ≤ zh * (101/100)) →
      evaluateWeeklyCore weekly = none) := by
  constructor
  · intro v hv
    obtain ⟨zl, zh', latest', prev', _, h2, h3, h4, _, _, _, _, h9, h10, h11⟩ :=
      evaluateWeeklyCore_some_spec weekly v hv
    have hzz : zh' = zh := by
      rw [hzh] at h2
      exact (Option.some.inj h2).symm
    have hl : latest' = latest := by
      rw [hlast] at h3
      exact (Option.some.inj h3).symm
    have hp : prev' = prev := by
      rw [hprev] at h4
      exact (Option.some.inj h4).symm
    rw [hzz, hl] at h9
    rw [hzz, hl] at h10
    rw [hzz, hp] at h11
    exact ⟨h9, h10, h11⟩
  · intro hbad
    cases hev : evaluateWeeklyCore weekly with
    | none => rfl
    | some v =>
      obtain ⟨zl, zh', latest', prev', _, h2, h3, h4, _, _, _, _, h9, h10, h11⟩ :=
        evaluateWeeklyCore_some_spec weekly v hev
      have hzz : zh' = zh := by
        rw [hzh] at h2
        exact (Option.some.inj h2).symm
      have hl : latest' = latest := by
        rw [hlast] at h3
        exact (Option.some.inj h3).symm
      have hp : prev' = prev := by
        rw [hprev] at h4
        exact (Option.some.inj h4).symm
      rw [hzz, hl] at h9
      rw [hzz, hl] at h10
      rw [hzz, hp] at h11
      exact absurd ⟨h9, h10, h11⟩ hbad

lemma pickWQ_replicate (q total : ℚ) (p : ℚ × ℚ) :
    ∀ (n : ℕ) (acc : ℚ), pickWQ q total (List.replicate (n+1) p) acc = p.1
  | 0, _ => rfl
  | n+1, acc => by
    have ih := pickWQ_replicate q total p n (acc + p.2)
    rw [List.replicate_succ] at ih ⊢
    rw [List.replicate_succ]
    simp only [pickWQ]
    split
    · rfl
    · exact ih

lemma weighted_quantile_replicate (n : ℕ) (c w q : ℚ) (hw : 0 < w) :
    weighted_quantile (List.replicate (n+1) c) (List.replicate (n+1) w) q = some c := by
  simp only [weighted_quantile]
  rw [show (List.replicate (n+1) c).zip (List.replicate (n+1) w) =
      List.replicate (n+1) (c, w) by simpa using List.zip_replicate]
  have hfil : (List.replicate (n+1) (c, w)).filter (fun p => decide (0 < p.2)) =
      List.replicate (n+1) (c, w) := by
    rw [List.filter_replicate]
    simp [hw]
  rw [hfil]
  have hsorted : List.Sorted vwLe (List.replicate (n+1) (c, w)) :=
    List.pairwise_replicate.mpr (Or.inr (le_refl c))
  rw [hsorted.insertionSort_eq]
  rw [if_neg (by simp [List.replicate_succ])]
  rw [pickWQ_replicate]

lemma baseWindow_weekly60 : baseWindow weekly60 = List.replicate 48 wbar0 := by
  rw [baseWindow, sliceNeg, weekly60]
  simp [List.drop_replicate, List.take_replicate]

lemma zoneHighOf_weekly60 : zoneHighOf weekly60 = some 100 := by
  rw [zoneHighOf, baseWindow_weekly60, List.map_replicate, List.map_replicate]
  exact weighted_quantile_replicate 47 100 1 (65/100) (by norm_num)

lemma preWindow_weekly60 : preWindow weekly60 = List.replicate 13 wbar0 := by
  rw [preWindow, sliceNeg, weekly60]
  simp [List.drop_replicate, List.take_replicate]

lemma touchCount_weekly60 : touchCount (preWindow weekly60) 100 = 13 := by
  rw [preWindow_weekly60, touchCount, List.filter_replicate]
  rw [if_pos (by norm_num [wbar0])]
  simp

/-- Witness for C5 at a concrete input: a constant 60-week series, whose zone
high is 100 and whose pre-breakout window touches the zone in all 13 weeks —
so the strategy rejects. -/
theorem touch_attempts_two_or_three_witness :
    evaluateWeeklyCore weekly60 = none :=
  (touch_attempts_two_or_three weekly60 100 zoneHighOf_weekly60).2
    (by rw [touchCount_weekly60]; omega)

lemma getLast_weekly60 : weekly60.getLast? = some wbar0 := by
  simp [weekly60, List.getLast?_replicate]

lemma prevBar_weekly60 : (weekly60.drop (weekly60.length - 2)).head? = some wbar0 := by
  rw [weekly60]
  simp [List.drop_replicate, List.replicate_succ]

/-- Witness for C6 at a concrete input: the constant 60-week series never closes
above `zone_high * 1.01`, so no breakout is confirmed and the strategy
rejects. -/
theorem breakout_confirmation_witness :
    weekly60.getLast? = some wbar0 ∧ evaluateWeeklyCore weekly60 = none :=
  ⟨getLast_weekly60,
    (breakout_confirmation weekly60 100 wbar0 wbar0 zoneHighOf_weekly60 getLast_weekly60
      prevBar_weekly60).2 (by norm_num [wbar0])⟩

/-! ## C8: weekly resampling -/

lemma foldl_max_mem (h : ℚ) : ∀ (t : List ℚ), t.foldl max h = h ∨ t.foldl max h ∈ t
  | [] => Or.inl rfl
  | a :: t => by
    rcases foldl_max_mem (max h a) t with heq | hmem
    · rcases max_choice h a with hc | hc
      · left
        rw [List.foldl_cons, heq, hc]
      · right
        rw [List.foldl_cons, heq, hc]
        exact List.mem_cons_self a t
    · right
      exact List.mem_cons_of_mem a hmem

lemma le_foldl_max (h : ℚ) : ∀ (t : List ℚ), h ≤ t.foldl max h ∧ ∀ x ∈ t, x ≤ t.foldl max h
  | [] => ⟨le_refl h, by simp⟩
  | a :: t => by
    obtain ⟨h1, h2⟩ := le_foldl_max (max h a) t
    refine ⟨le_trans (le_max_left h a) h1, ?_⟩
    intro x hx
    rcases List.mem_cons.mp hx with rfl | hx
    · exact le_trans (le_max_right h x) h1
    · exact h2 x hx

lemma foldl_min_mem (h : ℚ) : ∀ (t : List ℚ), t.foldl min h = h ∨ t.foldl min h ∈ t
  | [] => Or.inl rfl
  | a :: t => by
    rcases foldl_min_mem (min h a) t with heq | hmem
    · rcases min_choice h a with hc | hc
      · left
        rw [List.foldl_cons, heq, hc]
      · right
        rw [List.foldl_cons, heq, hc]
        exact List.mem_cons_self a t
    · right
      exact List.mem_cons_of_mem a hmem

lemma foldl_min_le (h : ℚ) : ∀ (t : List ℚ), t.foldl min h ≤ h ∧ ∀ x ∈ t, t.foldl min h ≤ x
  | [] => ⟨le_refl h, by simp⟩
  | a :: t => by
    obtain ⟨h1, h2⟩ := foldl_min_le (min h a) t
    refine ⟨le_trans h1 (min_le_left h a), ?_⟩
    intro x hx
    rcases List.mem_cons.mp hx with rfl | hx
    · exact le_trans h1 (min_le_right h x)
    · exact h2 x hx

lemma listMaxD_spec (l : List ℚ) (hl : l ≠ []) :
    listMaxD l ∈ l ∧ ∀ x ∈ l, x ≤ listMaxD l := by
  cases l with
  | nil => exact absurd rfl hl
  | cons h t =>
    constructor
    · rcases foldl_max_mem h t with heq | hmem
      · rw [listMaxD, heq]
        exact List.mem_cons_self h t
      · exact List.mem_cons_of_mem h hmem
    · intro x hx
      rcases List.mem_cons.mp hx with rfl | hx
      · exact (le_foldl_max x t).1
      · exact (le_foldl_max h t).2 x hx

lemma listMinD_spec (l : List ℚ) (hl : l ≠ []) :
    listMinD l ∈ l ∧ ∀ x ∈ l, listMinD l ≤ x := by
  cases l with
  | nil => exact absurd rfl hl
  | cons h t =>
    constructor
    · rcases foldl_min_mem h t with heq | hmem
      · rw [listMinD, heq]
        exact List.mem_cons_self h t
      · exact List.mem_cons_of_mem h hmem
    · intro x hx
      rcases List.mem_cons.mp hx with rfl | hx
      · exact (foldl_min_le x t).1
      · exact (foldl_min_le h t).2 x hx

lemma pairwise_rel_getLast {α : Type} {r : α → α → Prop} :
    ∀ (l : List α) (lb : α), l.Pairwise r → l.getLast? = some lb →
      ∀ b ∈ l, b = lb ∨ r b lb
  | [], _, _, h => by simp at h
  | [x], lb, _, h => by
    intro b hb
    rw [List.getLast?_singleton] at h
    rcases List.mem_singleton.mp hb with rfl
    exact Or.inl (Option.some.inj h)
  | x :: y :: t, lb, hp, h => by
    intro b hb
    have htail : (y :: t).getLast? = some lb := by
      rw [← h]
      rfl
    rcases List.mem_cons.mp hb with rfl | hb
    · right
      have hlbmem : lb ∈ y :: t := by
        rcases List.mem_getLast?_eq_getLast (Option.mem_def.mpr htail) with ⟨hne2, heq⟩
        rw [heq]
        exact List.getLast_mem hne2
      exact (List.pairwise_cons.mp hp).1 lb hlbmem
    · exact pairwise_rel_getLast (y :: t) lb (List.pairwise_cons.mp hp).2 htail b hb

/-- C8: on a daily series with strictly increasing dates, weekly resampling
produces, for every week label `w` owning at least one daily bar, a weekly bar
aligned to the fixed week-ending weekday (day ≡ 0 mod 7, within 7 days at or
after each member bar) whose close is the close of the last (latest-dated)
daily bar of that week, whose volume is the sum of the week's daily volumes,
whose high is the maximum daily high, and whose low is the minimum daily
low. -/
theorem resampleWeekly_spec (days : List DBar)
    (hsort : days.Pairwise fun a b => a.date < b.date)
    (w : ℤ) (hne : weekGroup days w ≠ []) :
    ∃ bar ∈ resampleWeekly days, bar.weekEnd = w ∧ w % 7 = 0 ∧
      (∀ b ∈ weekGroup days w, b.date ≤ w ∧ w < b.date + 7) ∧
      (∃ lb, (weekGroup days w).getLast? = some lb ∧ bar.close = lb.close ∧
        ∀ b ∈ weekGroup days w, b.date ≤ lb.date) ∧
      bar.volume = ((weekGroup days w).map DBar.volume).sum ∧
      ((∀ b ∈ weekGroup days w, b.high ≤ bar.high) ∧
        bar.high ∈ (weekGroup days w).map DBar.high) ∧
      ((∀ b ∈ weekGroup days w, bar.low ≤ b.low) ∧
        bar.low ∈ (weekGroup days w).map DBar.low) := by
  have hmem_week : ∀ b ∈ weekGroup days w, weekEnd b.date = w := by
    intro b hb
    have := (List.mem_filter.mp hb).2
    exact of_decide_eq_true this
  obtain ⟨b0, hb0⟩ : ∃ b0, b0 ∈ weekGroup days w := List.exists_mem_of_ne_nil _ hne
  have hw0 : weekEnd b0.date = w := hmem_week b0 hb0
  have hwmem : w ∈ weeksOf days := by
    rw [weeksOf, List.mem_dedup]
    exact List.mem_map.mpr ⟨b0, (List.mem_filter.mp hb0).1, hw0⟩
  refine ⟨aggWeek w (weekGroup days w), List.mem_map_of_mem _ hwmem, rfl, ?_, ?_, ?_, rfl, ?_, ?_⟩
  · rw [← hw0, weekEnd]
    omega
  · intro b hb
    have hwb := hmem_week b hb
    rw [← hwb, weekEnd]
    constructor
    · omega
    · omega
  · obtain ⟨lb, hlb⟩ : ∃ lb, (weekGroup days w).getLast? = some lb := by
      cases hg : (weekGroup days w).getLast? with
      | none => exact absurd (List.getLast?_eq_none_iff.mp hg) hne
      | some lb => exact ⟨lb, rfl⟩
    refine ⟨lb, hlb, ?_, ?_⟩
    · show ((weekGroup days w).getLast?.map DBar.close).getD 0 = lb.close
      rw [hlb]
      rfl
    · intro b hb
      have hgp : (weekGroup days w).Pairwise fun a b => a.date < b.date :=
        hsort.sublist (List.filter_sublist days)
      rcases pairwise_rel_getLast _ lb hgp hlb b hb with rfl | hlt
      · exact le_refl _
      · exact le_of_lt hlt
  · have hmne : ((weekGroup days w).map DBar.high) ≠ [] := by
      simpa using hne
    obtain ⟨hmem, hle⟩ := listMaxD_spec _ hmne
    refine ⟨?_, hmem⟩
    intro b hb
    exact hle b.high (List.mem_map_of_mem DBar.high hb)
  · have hmne : ((weekGroup days w).map DBar.low) ≠ [] := by
      simpa using hne
    obtain ⟨hmem, hle⟩ := listMinD_spec _ hmne
    refine ⟨?_, hmem⟩
    intro b hb
    exact hle b.low (List.mem_map_of_mem DBar.low hb)

/-- Witness for C8 at a concrete input: three daily bars on a Friday, the next
Saturday, and the following Friday; the last two share the week labelled 7. -/
theorem resampleWeekly_spec_witness :
    ∃ bar ∈ resampleWeekly days3, bar.weekEnd = 7 ∧ (7 : ℤ) % 7 = 0 ∧
      (∀ b ∈ weekGroup days3 7, b.date ≤ 7 ∧ (7 : ℤ) < b.date + 7) ∧
      (∃ lb, (weekGroup days3 7).getLast? = some lb ∧ bar.close = lb.close ∧
        ∀ b ∈ weekGroup days3 7, b.date ≤ lb.date) ∧
      bar.volume = ((weekGroup days3 7).map DBar.volume).sum ∧
      ((∀ b ∈ weekGroup days3 7, b.high ≤ bar.high) ∧
        bar.high ∈ (weekGroup days3 7).map DBar.high) ∧
      ((∀ b ∈ weekGroup days3 7, bar.low ≤ b.low) ∧
        bar.low ∈ (weekGroup days3 7).map DBar.low) :=
  resampleWeekly_spec days3 (by decide) 7 (by decide)

end StockScreener
